import Mathlib

set_option maxHeartbeats 1000000

/-! Shallow embedding of `src/src/program-rust/src/lib.rs`, a Solana "will"
program.  Bytes are modelled as `Nat` values (`< 256` in well-formed data);
Rust `String`s and `Pubkey`s are modelled by their textual byte sequences,
since the program only ever compares them for equality; `u64` lamport
arithmetic wraps modulo `2 ^ 64` where overflow is reachable. -/

/-- `Pubkey`, modelled by the bytes of its textual (base58) form: the program
only compares keys for equality and converts them to strings. -/
abbrev Pubkey := List Nat

/-- Little-endian value of a byte list. -/
def leNat : List Nat → Nat
  | [] => 0
  | b :: bs => b + 256 * leNat bs

/-- Little-endian encoding of `v` on `w` bytes (borsh integer layout). -/
def natLE : Nat → Nat → List Nat
  | 0, _ => []
  | w + 1, v => v % 256 :: natLE w (v / 256)

/-- A byte reader: consumes a prefix of the input or fails, like a borsh
deserializer over a byte slice (trailing bytes are returned, not rejected). -/
abbrev Reader (α : Type) := List Nat → Option (α × List Nat)

def readBytes (n : Nat) : Reader (List Nat) := fun bs =>
  if n ≤ bs.length then some (bs.take n, bs.drop n) else none

def readUInt (w : Nat) : Reader Nat := fun bs =>
  match readBytes w bs with
  | some (c, rest) => some (leNat c, rest)
  | none => none

def readU8 : Reader Nat := readUInt 1

def readU16 : Reader Nat := readUInt 2

def readU32 : Reader Nat := readUInt 4

def readU64 : Reader Nat := readUInt 8

/-- borsh `i64`: 8 little-endian bytes, two's complement. -/
def readI64 : Reader Int := fun bs =>
  match readUInt 8 bs with
  | some (n, rest) => some (if n < 2 ^ 63 then (n : Int) else (n : Int) - 2 ^ 64, rest)
  | none => none

/-- borsh `String`: u32 byte length, then the raw bytes (strings are modelled
as their byte sequences). -/
def readString : Reader (List Nat) := fun bs =>
  match readU32 bs with
  | some (n, rest) => readBytes n rest
  | none => none

def readListN {α : Type} (p : Reader α) : Nat → Reader (List α)
  | 0 => fun bs => some ([], bs)
  | n + 1 => fun bs =>
    match p bs with
    | some (a, rest) =>
      match readListN p n rest with
      | some (as, rest2) => some (a :: as, rest2)
      | none => none
    | none => none

/-- borsh `Vec<T>`: u32 element count, then the elements. -/
def readVec {α : Type} (p : Reader α) : Reader (List α) := fun bs =>
  match readU32 bs with
  | some (n, rest) => readListN p n rest
  | none => none

def encU16 (v : Nat) : List Nat := natLE 2 v

def encU32 (v : Nat) : List Nat := natLE 4 v

def encU64 (v : Nat) : List Nat := natLE 8 v

def encI64 (t : Int) : List Nat := natLE 8 (t.emod (2 ^ 64)).toNat

def encString (s : List Nat) : List Nat := encU32 s.length ++ s

def encVec {α : Type} (f : α → List Nat) (xs : List α) : List Nat :=
  encU32 xs.length ++ (xs.map f).flatten

/-- `WillData` (lib.rs): schema version, release timestamp, and the three
parallel beneficiary sequences. -/
structure WillData where
  schema_version : Nat
  withdraw_allowed_ts : Int
  inheritors_names : List (List Nat)
  inheritors_pubkeys : List (List Nat)
  inheritors_shares : List Nat
deriving DecidableEq, Repr

/-- Borsh serialization of `WillData`: version byte, 8-byte signed timestamp,
then the three length-prefixed sequences, in declaration order. -/
def encodeWillData (w : WillData) : List Nat :=
  natLE 1 w.schema_version ++ encI64 w.withdraw_allowed_ts ++
    encVec encString w.inheritors_names ++ encVec encString w.inheritors_pubkeys ++
    encVec encU16 w.inheritors_shares

/-- Borsh deserialization of `WillData` from a byte buffer prefix. -/
def decodeWillData : Reader WillData := fun bs =>
  match readU8 bs with
  | none => none
  | some (v, bs1) =>
    match readI64 bs1 with
    | none => none
    | some (ts, bs2) =>
      match readVec readString bs2 with
      | none => none
      | some (ns, bs3) =>
        match readVec readString bs3 with
        | none => none
        | some (ps, bs4) =>
          match readVec readU16 bs4 with
          | none => none
          | some (ss, bs5) => some (⟨v, ts, ns, ps, ss⟩, bs5)

/-- Values representable in the borsh wire format of `WillData`. -/
def WillData.Valid (w : WillData) : Prop :=
  w.schema_version < 256 ∧
  -(2 ^ 63) ≤ w.withdraw_allowed_ts ∧ w.withdraw_allowed_ts < 2 ^ 63 ∧
  w.inheritors_names.length < 2 ^ 32 ∧
  (∀ s ∈ w.inheritors_names, s.length < 2 ^ 32 ∧ ∀ b ∈ s, b < 256) ∧
  w.inheritors_pubkeys.length < 2 ^ 32 ∧
  (∀ s ∈ w.inheritors_pubkeys, s.length < 2 ^ 32 ∧ ∀ b ∈ s, b < 256) ∧
  w.inheritors_shares.length < 2 ^ 32 ∧
  (∀ v ∈ w.inheritors_shares, v < 2 ^ 16)

instance (w : WillData) : Decidable w.Valid := by
  unfold WillData.Valid; infer_instance

/-- `SetInheritenceMessage` (opcode 0 payload). -/
structure SetInheritenceMessage where
  selector : Nat
  inheritors_names : List (List Nat)
  inheritors_pubkeys : List (List Nat)
  inheritors_shares : List Nat
deriving DecidableEq, Repr

def decodeSetInheritenceMessage : Reader SetInheritenceMessage := fun bs =>
  match readU8 bs with
  | none => none
  | some (sel, bs1) =>
    match readVec readString bs1 with
    | none => none
    | some (ns, bs2) =>
      match readVec readString bs2 with
      | none => none
      | some (ps, bs3) =>
        match readVec readU16 bs3 with
        | none => none
        | some (ss, bs4) => some (⟨sel, ns, ps, ss⟩, bs4)

/-- The canonical borsh encoding of a `SetInheritenceMessage`, used to state
which payloads the decoder accepts. -/
def encodeSetInheritenceMessage (m : SetInheritenceMessage) : List Nat :=
  natLE 1 m.selector ++ encVec encString m.inheritors_names ++
    encVec encString m.inheritors_pubkeys ++ encVec encU16 m.inheritors_shares

/-- Wire values representable as a `SetInheritenceMessage`. -/
def SetInheritenceMessage.Valid (m : SetInheritenceMessage) : Prop :=
  m.selector < 256 ∧
  m.inheritors_names.length < 2 ^ 32 ∧
  (∀ s ∈ m.inheritors_names, s.length < 2 ^ 32) ∧
  m.inheritors_pubkeys.length < 2 ^ 32 ∧
  (∀ s ∈ m.inheritors_pubkeys, s.length < 2 ^ 32) ∧
  m.inheritors_shares.length < 2 ^ 32 ∧
  (∀ v ∈ m.inheritors_shares, v < 2 ^ 16)

instance (m : SetInheritenceMessage) : Decidable m.Valid := by
  unfold SetInheritenceMessage.Valid; infer_instance

/-- `WithdrawSolMessage` (opcode 1 payload). -/
structure WithdrawSolMessage where
  selector : Nat
  lamports : Nat
deriving DecidableEq, Repr

def decodeWithdrawSolMessage : Reader WithdrawSolMessage := fun bs =>
  match readU8 bs with
  | none => none
  | some (sel, bs1) =>
    match readU64 bs1 with
    | none => none
    | some (l, bs2) => some (⟨sel, l⟩, bs2)

/-- `WillData::check_released`: succeeds iff the stored timestamp is strictly
before `now`; on failure the code logs the (timestamp, now) pair, carried here
as the error value, and fails (error code `Custom(1)` at the call site). -/
def WillData.check_released (w : WillData) (now : Int) : Except (Int × Int) Unit :=
  if w.withdraw_allowed_ts < now then Except.ok ()
  else Except.error (w.withdraw_allowed_ts, now)

/-- Loop body of `WillData::get_share`.  `none` models the Rust
index-out-of-bounds panic on `inheritors_pubkeys[i]`, which by `&&`
short-circuiting is evaluated exactly when `inheritors_shares[i] > 0`.
The `u64` accumulators cannot overflow for any decodable record
(fewer than `2 ^ 32` entries, each `< 2 ^ 16`), so plain `Nat` addition
is used. -/
def get_shareGo (p : List Nat) (len : Nat) (pubkeys : List (List Nat)) :
    Nat → List Nat → Nat → Nat → Nat → Option (Nat × Nat × Nat)
  | _, [], inh, total, found => some (inh, total, found)
  | i, s :: rest, inh, total, found =>
    if 0 < s then
      match pubkeys[i]? with
      | none => none
      | some q =>
        if q = p ∧ found = len then
          get_shareGo p len pubkeys (i + 1) rest (inh + s) (total + s) i
        else
          get_shareGo p len pubkeys (i + 1) rest inh (total + s) found
    else
      get_shareGo p len pubkeys (i + 1) rest inh (total + s) found

/-- `WillData::get_share`: returns `(inheritor_shares, total_shares,
found_index)`, or `none` for the out-of-bounds panic. -/
def WillData.get_share (w : WillData) (p : List Nat) : Option (Nat × Nat × Nat) :=
  get_shareGo p w.inheritors_shares.length w.inheritors_pubkeys 0 w.inheritors_shares 0 0
    w.inheritors_shares.length

/-- First entry at index `≥ i` whose share is positive and whose identity is
`p`; returns the index and that share. -/
def findFirstShare (p : List Nat) (pubkeys : List (List Nat)) :
    Nat → List Nat → Option (Nat × Nat)
  | _, [] => none
  | i, s :: rest =>
    if 0 < s ∧ pubkeys.getD i [] = p then some (i, s)
    else findFirstShare p pubkeys (i + 1) rest

/-- ASCII bytes of the seed constant `"solana-will.com/my/v3/1"`. -/
def fixedSeed : List Nat :=
  [115, 111, 108, 97, 110, 97, 45, 119, 105, 108, 108, 46, 99, 111, 109, 47,
   109, 121, 47, 118, 51, 47, 49]

/-- Modelled from the spec: `Pubkey::create_with_seed` lives in the external
`solana_program` crate, outside this repository's sources.  Spec §4.2 requires
only a deterministic, pure, collision-free function of (owner identity, seed,
namespace); it is modelled as the injective concatenation of its inputs. -/
def create_with_seed (base : Pubkey) (seed : List Nat) (owner : Pubkey) : Pubkey :=
  base ++ seed ++ owner

/-- Typed program errors surfaced by the embedded entrypoint. -/
inductive PErr where
  | incorrectProgramId : PErr
  | borshIo : PErr
  | custom : Nat → PErr
deriving DecidableEq, Repr

/-- `check_ownership` (lib.rs): the target account key must equal the address
derived from the sender's key, the fixed seed and the program id. -/
def check_ownership (account_key sender_key program_id : Pubkey) : Except PErr Unit :=
  if account_key = create_with_seed sender_key fixedSeed program_id then Except.ok ()
  else Except.error PErr.incorrectProgramId

/-- The mutable state visible to one invocation: the two accounts' lamports
and the target account's data buffer. -/
structure AccountState where
  senderLamports : Nat
  accountLamports : Nat
  accountData : List Nat
deriving DecidableEq, Repr

/-- Invocation outcome: success or a typed error (each carrying the state as
mutated so far), or a Rust panic/abort, which is outside the error taxonomy. -/
inductive PResult where
  | ok : AccountState → PResult
  | err : PErr → AccountState → PResult
  | panic : PResult
deriving DecidableEq, Repr

def U64LIM : Nat := 2 ^ 64

def u64add (a b : Nat) : Nat := (a + b) % U64LIM

def u64sub (a b : Nat) : Nat := ((((a : Int) - (b : Int))) % (U64LIM : Int)).toNat

/-- `will_data.serialize(&mut &mut account.data.borrow_mut()[..])`: writes the
encoding over the front of the buffer, leaving any trailing old bytes; if the
buffer is too small the write fails after filling it (borsh writes
field-by-field through `write_all` on the slice). -/
def persist (w : WillData) (st : AccountState) : PResult :=
  let bs := encodeWillData w
  if bs.length ≤ st.accountData.length then
    PResult.ok { st with accountData := bs ++ st.accountData.drop bs.length }
  else
    PResult.err PErr.borshIo { st with accountData := bs.take st.accountData.length }

/-- `let timeout: i64 = 5 * 60;` -/
def RELEASE_WINDOW : Int := 5 * 60

/-- `process_instruction` (lib.rs).  `now` stands for
`Clock::get()?.unix_timestamp`; the accounts iterator is modelled by the
(sender, account) pair, with the account's owner passed explicitly.
`instruction_data = []` reaches the unchecked `_instruction_data[0]` index
and is a panic. -/
def process_instruction (program_id sender_key account_key account_owner : Pubkey)
    (now : Int) (instruction_data : List Nat) (st : AccountState) : PResult :=
  if account_owner ≠ program_id then PResult.err PErr.incorrectProgramId st
  else
    match instruction_data with
    | [] => PResult.panic
    | 0 :: _ =>
      match check_ownership account_key sender_key program_id with
      | Except.error e => PResult.err e st
      | Except.ok _ =>
        match decodeWillData st.accountData with
        | none => PResult.err PErr.borshIo st
        | some _ =>
          match decodeSetInheritenceMessage instruction_data with
          | none => PResult.err PErr.borshIo st
          | some (m, _) =>
            persist { schema_version := 1, withdraw_allowed_ts := now + RELEASE_WINDOW,
                      inheritors_names := m.inheritors_names,
                      inheritors_pubkeys := m.inheritors_pubkeys,
                      inheritors_shares := m.inheritors_shares } st
    | 1 :: _ =>
      match check_ownership account_key sender_key program_id with
      | Except.error e => PResult.err e st
      | Except.ok _ =>
        match decodeWithdrawSolMessage instruction_data with
        | none => PResult.err PErr.borshIo st
        | some (m, _) =>
          let st1 : AccountState :=
            { st with accountLamports := u64sub st.accountLamports m.lamports,
                      senderLamports := u64add st.senderLamports m.lamports }
          match decodeWillData st1.accountData with
          | none => PResult.err PErr.borshIo st1
          | some (w, _) =>
            persist { w with withdraw_allowed_ts := now + RELEASE_WINDOW } st1
    | 2 :: _ =>
      match decodeWillData st.accountData with
      | none => PResult.err PErr.borshIo st
      | some (w, _) =>
        match w.check_released now with
        | Except.error _ => PResult.err (PErr.custom 1) st
        | Except.ok _ =>
          match w.get_share sender_key with
          | none => PResult.panic
          | some (inh, total, idx) =>
            if inh = 0 then PResult.err (PErr.custom 2) st
            else if total = 0 then PResult.panic
            else
              let amount := st.accountLamports / total * inh
              let st1 : AccountState :=
                { st with accountLamports := u64sub st.accountLamports amount,
                          senderLamports := u64add st.senderLamports amount }
              persist { w with inheritors_shares := w.inheritors_shares.set idx 0 } st1
    | _ :: _ => PResult.ok st

/-- Concrete record used in counterexamples/witnesses: one beneficiary, name
`[65]`, identity `[66]`, share weight 5. -/
def exWill : WillData := ⟨1, 0, [[65]], [[66]], [5]⟩

/-- `exWill` after its single entry has been zeroed. -/
def exWillZeroed : WillData := ⟨1, 0, [[65]], [[66]], [0]⟩

/-- A record whose parallel arrays are inconsistent: one positive share but no
identity entry at its index. -/
def exBadWill : WillData := ⟨1, 0, [], [], [4]⟩

/-- Record with the identity `[8]` registered twice with positive weights
(indices 1 and 2). -/
def exDupWill : WillData := ⟨1, 0, [[65], [66], [67]], [[9], [8], [8]], [3, 2, 7]⟩

/-- Mismatched-length opcode-0 payload: selector 0, zero names, zero
identities, one share (value 1). -/
def exMismatchedPayload : List Nat := [0, 0, 0, 0, 0, 0, 0, 0, 0, 1, 0, 0, 0, 1, 0]

def exSender : Pubkey := [3]

def exProgramId : Pubkey := [7]

def exAccountKey : Pubkey := create_with_seed exSender fixedSeed exProgramId

/-! ## Little-endian integer lemmas -/

theorem natLE_length : ∀ (w v : Nat), (natLE w v).length = w
  | 0, _ => rfl
  | w + 1, v => by simp [natLE, natLE_length w]

theorem leNat_natLE : ∀ (w v : Nat), v < 256 ^ w → leNat (natLE w v) = v
  | 0, v, h => by
    simp [natLE, leNat]
    omega
  | w + 1, v, h => by
    have hd : v / 256 < 256 ^ w := by
      rw [Nat.div_lt_iff_lt_mul (by norm_num)]
      calc v < 256 ^ (w + 1) := h
        _ = 256 ^ w * 256 := by ring
    simp [natLE, leNat, leNat_natLE w (v / 256) hd]
    omega

theorem readBytes_append {n : Nat} {xs : List Nat} (r : List Nat) (h : xs.length = n) :
    readBytes n (xs ++ r) = some (xs, r) := by
  subst h
  simp [readBytes]

theorem readUInt_append {w v : Nat} (r : List Nat) (h : v < 256 ^ w) :
    readUInt w (natLE w v ++ r) = some (v, r) := by
  simp only [readUInt, readBytes_append r (natLE_length w v), leNat_natLE w v h]

theorem readI64_encI64 {t : Int} (r : List Nat) (h1 : -(2 ^ 63) ≤ t) (h2 : t < 2 ^ 63) :
    readI64 (encI64 t ++ r) = some (t, r) := by
  have he : (0 : Int) ≤ t.emod (2 ^ 64) := Int.emod_nonneg t (by norm_num)
  have hlt : t.emod (2 ^ 64) < 2 ^ 64 := Int.emod_lt_of_pos t (by norm_num)
  have hmod : t.emod (2 ^ 64) = t ∨ t.emod (2 ^ 64) = t + 2 ^ 64 := by
    rcases le_or_lt 0 t with ht | ht
    · left
      exact Int.emod_eq_of_lt ht (by omega)
    · right
      have h1' : (t + 2 ^ 64 * 1).emod (2 ^ 64) = t.emod (2 ^ 64) :=
        Int.add_mul_emod_self_left t (2 ^ 64) 1
      have h2' : (t + 2 ^ 64 * 1).emod (2 ^ 64) = t + 2 ^ 64 * 1 :=
        Int.emod_eq_of_lt (by omega) (by omega)
      omega
  have hm : (t.emod (2 ^ 64)).toNat < 256 ^ 8 := by
    have h256 : (256 : Nat) ^ 8 = 2 ^ 64 := by norm_num
    omega
  have hval : (if (t.emod (2 ^ 64)).toNat < 2 ^ 63 then (((t.emod (2 ^ 64)).toNat : Nat) : Int)
      else (((t.emod (2 ^ 64)).toNat : Nat) : Int) - 2 ^ 64) = t := by
    split <;> omega
  simp only [encI64, readI64, readUInt_append r hm, hval]

theorem readString_encString {s : List Nat} (r : List Nat) (h : s.length < 2 ^ 32) :
    readString (encString s ++ r) = some (s, r) := by
  have h4 : s.length < 256 ^ 4 := by omega
  simp only [encString, readString, readU32, encU32, List.append_assoc,
    readUInt_append (s ++ r) h4, readBytes_append r rfl]

theorem readListN_flatten {α : Type} (p : Reader α) (f : α → List Nat) :
    ∀ (xs : List α) (r : List Nat),
      (∀ x ∈ xs, ∀ r2, p (f x ++ r2) = some (x, r2)) →
      readListN p xs.length ((xs.map f).flatten ++ r) = some (xs, r)
  | [], r, _ => by simp [readListN]
  | x :: xs, r, H => by
    have hx := H x (List.mem_cons_self x xs) ((xs.map f).flatten ++ r)
    have hrest := readListN_flatten p f xs r fun y hy => H y (List.mem_cons_of_mem x hy)
    simp only [List.map_cons, List.flatten_cons, List.length_cons, List.append_assoc, readListN,
      hx, hrest]

theorem readVec_encVec {α : Type} (p : Reader α) (f : α → List Nat) (xs : List α)
    (r : List Nat) (hlen : xs.length < 2 ^ 32)
    (H : ∀ x ∈ xs, ∀ r2, p (f x ++ r2) = some (x, r2)) :
    readVec p (encVec f xs ++ r) = some (xs, r) := by
  have h4 : xs.length < 256 ^ 4 := by omega
  simp only [encVec, readVec, readU32, encU32, List.append_assoc,
    readUInt_append ((xs.map f).flatten ++ r) h4, readListN_flatten p f xs r H]

theorem readU16_encU16 {v : Nat} (r : List Nat) (h : v < 2 ^ 16) :
    readU16 (encU16 v ++ r) = some (v, r) := by
  have h2 : v < 256 ^ 2 := by omega
  simp only [encU16, readU16, readUInt_append r h2]

theorem decodeWillData_encodeWillData {w : WillData} (r : List Nat) (hw : w.Valid) :
    decodeWillData (encodeWillData w ++ r) = some (w, r) := by
  obtain ⟨h1, h2, h3, h4, h5, h6, h7, h8, h9⟩ := hw
  have Hns : ∀ s ∈ w.inheritors_names, ∀ r2, readString (encString s ++ r2) = some (s, r2) :=
    fun s hs r2 => readString_encString r2 (h5 s hs).1
  have Hps : ∀ s ∈ w.inheritors_pubkeys, ∀ r2, readString (encString s ++ r2) = some (s, r2) :=
    fun s hs r2 => readString_encString r2 (h7 s hs).1
  have Hss : ∀ v ∈ w.inheritors_shares, ∀ r2, readU16 (encU16 v ++ r2) = some (v, r2) :=
    fun v hv r2 => readU16_encU16 r2 (h9 v hv)
  have h256 : w.schema_version < 256 ^ 1 := by omega
  simp only [encodeWillData, decodeWillData, List.append_assoc, readU8,
    readUInt_append _ h256,
    readI64_encI64 _ h2 h3,
    readVec_encVec readString encString w.inheritors_names _ h4 Hns,
    readVec_encVec readString encString w.inheritors_pubkeys _ h6 Hps,
    readVec_encVec readU16 encU16 w.inheritors_shares _ h8 Hss]

theorem decodeSetMsg_encodeSetMsg {m : SetInheritenceMessage} (r : List Nat) (hm : m.Valid) :
    decodeSetInheritenceMessage (encodeSetInheritenceMessage m ++ r) = some (m, r) := by
  obtain ⟨h1, h2, h3, h4, h5, h6, h7⟩ := hm
  have Hns : ∀ s ∈ m.inheritors_names, ∀ r2, readString (encString s ++ r2) = some (s, r2) :=
    fun s hs r2 => readString_encString r2 (h3 s hs)
  have Hps : ∀ s ∈ m.inheritors_pubkeys, ∀ r2, readString (encString s ++ r2) = some (s, r2) :=
    fun s hs r2 => readString_encString r2 (h5 s hs)
  have Hss : ∀ v ∈ m.inheritors_shares, ∀ r2, readU16 (encU16 v ++ r2) = some (v, r2) :=
    fun v hv r2 => readU16_encU16 r2 (h7 v hv)
  have h256 : m.selector < 256 ^ 1 := by omega
  simp only [encodeSetInheritenceMessage, decodeSetInheritenceMessage, List.append_assoc,
    readU8, readUInt_append _ h256,
    readVec_encVec readString encString m.inheritors_names _ h2 Hns,
    readVec_encVec readString encString m.inheritors_pubkeys _ h4 Hps,
    readVec_encVec readU16 encU16 m.inheritors_shares _ h6 Hss]

/-! ## Consumed-length lemmas: a successful read consumes exactly the bytes
the canonical encoder would produce. -/

theorem readBytes_length {n : Nat} {bs xs rest : List Nat}
    (h : readBytes n bs = some (xs, rest)) : xs.length = n ∧ bs.length = n + rest.length := by
  unfold readBytes at h
  split at h
  case isTrue hle =>
    simp only [Option.some.injEq, Prod.mk.injEq] at h
    obtain ⟨h1, h2⟩ := h
    subst h1
    subst h2
    refine ⟨by simp; omega, by simp; omega⟩
  case isFalse => exact absurd h (by simp)

theorem readUInt_length {w : Nat} {bs : List Nat} {v : Nat} {rest : List Nat}
    (h : readUInt w bs = some (v, rest)) : bs.length = w + rest.length := by
  unfold readUInt at h
  cases hb : readBytes w bs with
  | none => rw [hb] at h; exact absurd h (by simp)
  | some pr =>
    obtain ⟨c, r0⟩ := pr
    rw [hb] at h
    simp only [Option.some.injEq, Prod.mk.injEq] at h
    obtain ⟨-, h2⟩ := h
    subst h2
    exact (readBytes_length hb).2

theorem readI64_length {bs : List Nat} {t : Int} {rest : List Nat}
    (h : readI64 bs = some (t, rest)) : bs.length = 8 + rest.length := by
  unfold readI64 at h
  cases hb : readUInt 8 bs with
  | none => rw [hb] at h; exact absurd h (by simp)
  | some pr =>
    obtain ⟨n, r0⟩ := pr
    rw [hb] at h
    simp only [Option.some.injEq, Prod.mk.injEq] at h
    obtain ⟨-, h2⟩ := h
    subst h2
    exact readUInt_length hb

theorem readString_length {bs s rest : List Nat}
    (h : readString bs = some (s, rest)) : bs.length = (4 + s.length) + rest.length := by
  unfold readString at h
  cases hb : readU32 bs with
  | none => rw [hb] at h; exact absurd h (by simp)
  | some pr =>
    obtain ⟨n, r0⟩ := pr
    rw [hb] at h
    have h32 := readUInt_length hb
    have hr := readBytes_length h
    omega

theorem readListN_length {α : Type} (p : Reader α) (L : α → Nat)
    (HP : ∀ a bs rest, p bs = some (a, rest) → bs.length = L a + rest.length) :
    ∀ (n : Nat) (bs : List Nat) (xs : List α) (rest : List Nat),
      readListN p n bs = some (xs, rest) →
      xs.length = n ∧ bs.length = (xs.map L).sum + rest.length
  | 0, bs, xs, rest, h => by
    simp only [readListN, Option.some.injEq, Prod.mk.injEq] at h
    obtain ⟨h1, h2⟩ := h
    subst h1
    subst h2
    simp
  | n + 1, bs, xs, rest, h => by
    simp only [readListN] at h
    split at h
    next a r0 hb =>
      split at h
      next as r1 hl =>
        simp only [Option.some.injEq, Prod.mk.injEq] at h
        obtain ⟨h1, h2⟩ := h
        subst h1
        subst h2
        have ha := HP a bs r0 hb
        have hrec := readListN_length p L HP n r0 as r1 hl
        simp only [List.length_cons, List.map_cons, List.sum_cons]
        omega
      next => exact absurd h (by simp)
    next => exact absurd h (by simp)

theorem readVec_length {α : Type} (p : Reader α) (L : α → Nat)
    (HP : ∀ a bs rest, p bs = some (a, rest) → bs.length = L a + rest.length)
    {bs : List Nat} {xs : List α} {rest : List Nat}
    (h : readVec p bs = some (xs, rest)) :
    bs.length = (4 + (xs.map L).sum) + rest.length := by
  unfold readVec at h
  cases hb : readU32 bs with
  | none => rw [hb] at h; exact absurd h (by simp)
  | some pr =>
    obtain ⟨n, r0⟩ := pr
    rw [hb] at h
    have h32 := readUInt_length hb
    have hl := readListN_length p L HP n r0 xs rest h
    omega

theorem encString_length (s : List Nat) : (encString s).length = 4 + s.length := by
  simp [encString, encU32, natLE_length]

theorem encVec_length {α : Type} (f : α → List Nat) (xs : List α) :
    (encVec f xs).length = 4 + (xs.map fun x => (f x).length).sum := by
  simp only [encVec, encU32, List.length_append, natLE_length, List.length_flatten,
    List.map_map]
  rfl

theorem sum_map_two {α : Type} (xs : List α) : (xs.map fun _ => 2).sum = 2 * xs.length := by
  induction xs with
  | nil => simp
  | cons x xs ih => simp [ih]; ring

theorem encodeWillData_length (w : WillData) :
    (encodeWillData w).length =
      9 + (4 + (w.inheritors_names.map fun s => 4 + s.length).sum)
        + (4 + (w.inheritors_pubkeys.map fun s => 4 + s.length).sum)
        + (4 + 2 * w.inheritors_shares.length) := by
  simp only [encodeWillData, List.length_append, natLE_length, encI64, encVec_length,
    encString_length, encU16]
  rw [sum_map_two]

theorem decodeWillData_length {bs : List Nat} {w : WillData} {rest : List Nat}
    (h : decodeWillData bs = some (w, rest)) :
    bs.length = (encodeWillData w).length + rest.length := by
  unfold decodeWillData at h
  split at h
  next => exact absurd h (by simp)
  next v bs1 h1 =>
    split at h
    next => exact absurd h (by simp)
    next ts bs2 h2 =>
      split at h
      next => exact absurd h (by simp)
      next ns bs3 h3 =>
        split at h
        next => exact absurd h (by simp)
        next ps bs4 h4 =>
          split at h
          next => exact absurd h (by simp)
          next ss bs5 h5 =>
            simp only [Option.some.injEq, Prod.mk.injEq] at h
            obtain ⟨hw, hrest⟩ := h
            subst hw
            subst hrest
            have l1 := readUInt_length h1
            have l2 := readI64_length h2
            have l3 := readVec_length readString (fun s => 4 + s.length)
              (fun a bs r ha => readString_length ha) h3
            have l4 := readVec_length readString (fun s => 4 + s.length)
              (fun a bs r ha => readString_length ha) h4
            have l5 := readVec_length readU16 (fun _ => 2)
              (fun a bs r ha => readUInt_length ha) h5
            have le := encodeWillData_length ⟨v, ts, ns, ps, ss⟩
            simp only at le
            have hs2 := sum_map_two ss
            omega

/-! ## `get_share` loop lemmas -/

theorem get_shareGo_sum (p : List Nat) (len : Nat) (ps : List (List Nat)) :
    ∀ (rest : List Nat) (i inh tot found I T F : Nat),
      get_shareGo p len ps i rest inh tot found = some (I, T, F) → T = tot + rest.sum
  | [], i, inh, tot, found, I, T, F, h => by
    simp only [get_shareGo, Option.some.injEq, Prod.mk.injEq] at h
    obtain ⟨-, h2, -⟩ := h
    simp [← h2]
  | s :: rest, i, inh, tot, found, I, T, F, h => by
    simp only [get_shareGo] at h
    split at h
    · split at h
      next => exact absurd h (by simp)
      next q hq =>
        split at h
        · have := get_shareGo_sum p len ps rest (i + 1) (inh + s) (tot + s) i I T F h
          simp only [List.sum_cons]
          omega
        · have := get_shareGo_sum p len ps rest (i + 1) inh (tot + s) found I T F h
          simp only [List.sum_cons]
          omega
    · have := get_shareGo_sum p len ps rest (i + 1) inh (tot + s) found I T F h
      simp only [List.sum_cons]
      omega

theorem get_shareGo_le (p : List Nat) (len : Nat) (ps : List (List Nat)) :
    ∀ (rest : List Nat) (i inh tot found I T F : Nat),
      inh ≤ tot → get_shareGo p len ps i rest inh tot found = some (I, T, F) → I ≤ T
  | [], i, inh, tot, found, I, T, F, hle, h => by
    simp only [get_shareGo, Option.some.injEq, Prod.mk.injEq] at h
    obtain ⟨h1, h2, -⟩ := h
    omega
  | s :: rest, i, inh, tot, found, I, T, F, hle, h => by
    simp only [get_shareGo] at h
    split at h
    · split at h
      next => exact absurd h (by simp)
      next q hq =>
        split at h
        · exact get_shareGo_le p len ps rest (i + 1) (inh + s) (tot + s) i I T F (by omega) h
        · exact get_shareGo_le p len ps rest (i + 1) inh (tot + s) found I T F (by omega) h
    · exact get_shareGo_le p len ps rest (i + 1) inh (tot + s) found I T F (by omega) h

theorem get_shareGo_post (p : List Nat) (len : Nat) (ps : List (List Nat)) :
    ∀ (rest : List Nat) (i inh tot found I T F : Nat),
      found ≠ len → get_shareGo p len ps i rest inh tot found = some (I, T, F) →
      I = inh ∧ F = found
  | [], i, inh, tot, found, I, T, F, hne, h => by
    simp only [get_shareGo, Option.some.injEq, Prod.mk.injEq] at h
    obtain ⟨h1, -, h3⟩ := h
    exact ⟨h1.symm, h3.symm⟩
  | s :: rest, i, inh, tot, found, I, T, F, hne, h => by
    simp only [get_shareGo] at h
    split at h
    · split at h
      next => exact absurd h (by simp)
      next q hq =>
        split at h
        next hcond => exact absurd hcond.2 hne
        next => exact get_shareGo_post p len ps rest (i + 1) inh (tot + s) found I T F hne h
    · exact get_shareGo_post p len ps rest (i + 1) inh (tot + s) found I T F hne h

theorem get_shareGo_search (p : List Nat) (len : Nat) (ps : List (List Nat)) :
    ∀ (rest : List Nat) (i inh tot I T F : Nat),
      i + rest.length = len →
      get_shareGo p len ps i rest inh tot len = some (I, T, F) →
      (F = len ∧ I = inh) ∨
      (∃ k, k < rest.length ∧ F = i + k ∧ 0 < rest.getD k 0 ∧
        I = inh + rest.getD k 0 ∧ ps.getD F [] = p ∧
        ∀ m, m < k → ¬(0 < rest.getD m 0 ∧ ps.getD (i + m) [] = p))
  | [], i, inh, tot, I, T, F, hi, h => by
    simp only [get_shareGo, Option.some.injEq, Prod.mk.injEq] at h
    obtain ⟨h1, -, h3⟩ := h
    exact Or.inl ⟨h3.symm, h1.symm⟩
  | s :: rest, i, inh, tot, I, T, F, hi, h => by
    simp only [get_shareGo] at h
    simp only [List.length_cons] at hi
    split at h
    next hs =>
      split at h
      next => exact absurd h (by simp)
      next q hq =>
        split at h
        next hcond =>
          have hpost := get_shareGo_post p len ps rest (i + 1) (inh + s) (tot + s) i I T F
            (by omega) h
          refine Or.inr ⟨0, by simp, by omega, by simpa using hs, by simpa using hpost.1, ?_, ?_⟩
          · rw [hpost.2, List.getD_eq_getElem?_getD, hq, Option.getD_some, hcond.1]
          · intro m hm
            omega
        next hcond =>
          have hqp : q ≠ p := by
            intro hqp
            exact hcond ⟨hqp, trivial⟩
          rcases get_shareGo_search p len ps rest (i + 1) inh (tot + s) I T F (by omega) h with
            hl | ⟨k, hk, hF, hpos, hI, hid, hmin⟩
          · exact Or.inl hl
          · refine Or.inr ⟨k + 1, by simpa using Nat.succ_lt_succ hk, by omega,
              by simpa using hpos, by simpa using hI, hid, ?_⟩
            intro m hm
            cases m with
            | zero =>
              rintro ⟨-, hcontra⟩
              rw [Nat.add_zero, List.getD_eq_getElem?_getD, hq, Option.getD_some] at hcontra
              exact hqp hcontra
            | succ m0 =>
              rintro ⟨hc1, hc2⟩
              refine hmin m0 (by omega) ⟨by simpa using hc1, ?_⟩
              rw [show i + 1 + m0 = i + (m0 + 1) by omega]
              exact hc2
    next hs =>
      have hs0 : s = 0 := by omega
      rcases get_shareGo_search p len ps rest (i + 1) inh (tot + s) I T F (by omega) h with
        hl | ⟨k, hk, hF, hpos, hI, hid, hmin⟩
      · exact Or.inl hl
      · refine Or.inr ⟨k + 1, by simpa using Nat.succ_lt_succ hk, by omega,
          by simpa using hpos, by simpa using hI, hid, ?_⟩
        intro m hm
        cases m with
        | zero =>
          rintro ⟨hcontra, -⟩
          simp [hs0] at hcontra
        | succ m0 =>
          rintro ⟨hc1, hc2⟩
          refine hmin m0 (by omega) ⟨by simpa using hc1, ?_⟩
          rw [show i + 1 + m0 = i + (m0 + 1) by omega]
          exact hc2

theorem get_shareGo_after (p : List Nat) (len : Nat) (ps : List (List Nat)) :
    ∀ (rest : List Nat) (i inh tot found : Nat),
      found ≠ len →
      (∀ k, k < rest.length → 0 < rest.getD k 0 → i + k < ps.length) →
      get_shareGo p len ps i rest inh tot found = some (inh, tot + rest.sum, found)
  | [], i, inh, tot, found, hne, hnp => by
    simp [get_shareGo]
  | s :: rest, i, inh, tot, found, hne, hnp => by
    have hnp1 : ∀ k, k < rest.length → 0 < rest.getD k 0 → (i + 1) + k < ps.length := by
      intro k hk hpos
      have := hnp (k + 1) (by simpa using Nat.succ_lt_succ hk) (by simpa using hpos)
      omega
    simp only [get_shareGo]
    split
    next hs =>
      have hilt : i < ps.length := by
        have := hnp 0 (by simp) (by simpa using hs)
        omega
      split
      next hnone => simp [List.getElem?_eq_getElem hilt] at hnone
      next q hq =>
        split
        next hcond => exact absurd hcond.2 hne
        next =>
          rw [get_shareGo_after p len ps rest (i + 1) inh (tot + s) found hne hnp1]
          simp [List.sum_cons, Nat.add_assoc]
    next =>
      rw [get_shareGo_after p len ps rest (i + 1) inh (tot + s) found hne hnp1]
      simp [List.sum_cons, Nat.add_assoc]

theorem findFirstShare_pos (p : List Nat) (ps : List (List Nat)) :
    ∀ (rest : List Nat) (i j s : Nat),
      findFirstShare p ps i rest = some (j, s) → 0 < s
  | [], i, j, s, h => by simp [findFirstShare] at h
  | x :: rest, i, j, s, h => by
    simp only [findFirstShare] at h
    split at h
    next hc =>
      simp only [Option.some.injEq, Prod.mk.injEq] at h
      obtain ⟨-, h2⟩ := h
      omega
    next => exact findFirstShare_pos p ps rest (i + 1) j s h

theorem findFirstShare_none (p : List Nat) (ps : List (List Nat)) :
    ∀ (rest : List Nat) (i : Nat),
      findFirstShare p ps i rest = none →
      ∀ k, k < rest.length → ¬(0 < rest.getD k 0 ∧ ps.getD (i + k) [] = p)
  | [], i, h, k, hk => by simp at hk
  | x :: rest, i, h, k, hk => by
    simp only [findFirstShare] at h
    split at h
    next hc => exact absurd h (by simp)
    next hc =>
      cases k with
      | zero =>
        rintro ⟨hc1, hc2⟩
        simp only [List.getD_cons_zero] at hc1
        rw [Nat.add_zero] at hc2
        exact hc ⟨hc1, hc2⟩
      | succ k0 =>
        have := findFirstShare_none p ps rest (i + 1) h k0 (by simpa using hk)
        rintro ⟨hc1, hc2⟩
        refine this ⟨by simpa using hc1, ?_⟩
        rw [show i + 1 + k0 = i + (k0 + 1) by omega]
        exact hc2

theorem get_shareGo_nopanic (p : List Nat) (len : Nat) (ps : List (List Nat)) :
    ∀ (rest : List Nat) (i inh tot : Nat),
      (∀ k, k < rest.length → 0 < rest.getD k 0 → i + k < ps.length) →
      i + rest.length = len →
      get_shareGo p len ps i rest inh tot len =
        (match findFirstShare p ps i rest with
         | none => some (inh, tot + rest.sum, len)
         | some (j, s) => some (inh + s, tot + rest.sum, j))
  | [], i, inh, tot, hnp, hi => by
    simp [get_shareGo, findFirstShare]
  | s :: rest, i, inh, tot, hnp, hi => by
    have hnp1 : ∀ k, k < rest.length → 0 < rest.getD k 0 → (i + 1) + k < ps.length := by
      intro k hk hpos
      have := hnp (k + 1) (by simpa using Nat.succ_lt_succ hk) (by simpa using hpos)
      omega
    simp only [List.length_cons] at hi
    simp only [get_shareGo, findFirstShare]
    split
    next hs =>
      have hilt : i < ps.length := by
        have := hnp 0 (by simp) (by simpa using hs)
        omega
      have hgetD : ps.getD i [] = ps[i] := by
        simp [List.getD_eq_getElem?_getD, List.getElem?_eq_getElem hilt]
      split
      next hnone => simp [List.getElem?_eq_getElem hilt] at hnone
      next q hq =>
        rw [List.getElem?_eq_getElem hilt] at hq
        have hqi : q = ps[i] := by
          simp only [Option.some.injEq] at hq
          exact hq.symm
        subst hqi
        by_cases hqp : ps[i] = p
        · rw [if_pos ⟨hqp, trivial⟩, if_pos ⟨hs, by rw [hgetD]; exact hqp⟩]
          rw [get_shareGo_after p len ps rest (i + 1) (inh + s) (tot + s) i (by omega) hnp1]
          simp [List.sum_cons, Nat.add_assoc]
        · rw [if_neg (by rintro ⟨hc, -⟩; exact hqp hc),
            if_neg (by rintro ⟨-, hc⟩; rw [hgetD] at hc; exact hqp hc)]
          rw [get_shareGo_nopanic p len ps rest (i + 1) inh (tot + s) hnp1 (by omega)]
          cases hff : findFirstShare p ps (i + 1) rest with
          | none => simp [List.sum_cons, Nat.add_assoc]
          | some pr =>
            obtain ⟨j, s2⟩ := pr
            simp [List.sum_cons, Nat.add_assoc]
    next hs =>
      have hs0 : s = 0 := by omega
      rw [if_neg (by rintro ⟨hc, -⟩; omega)]
      rw [get_shareGo_nopanic p len ps rest (i + 1) inh (tot + s) hnp1 (by omega)]
      cases hff : findFirstShare p ps (i + 1) rest with
      | none => simp [List.sum_cons, Nat.add_assoc]
      | some pr =>
        obtain ⟨j, s2⟩ := pr
        simp [List.sum_cons, Nat.add_assoc]

/-! ## Top-level facts about `WillData.get_share` -/

theorem get_share_sum {w : WillData} {p : List Nat} {I T F : Nat}
    (h : w.get_share p = some (I, T, F)) : T = w.inheritors_shares.sum := by
  have h' : get_shareGo p w.inheritors_shares.length w.inheritors_pubkeys 0
      w.inheritors_shares 0 0 w.inheritors_shares.length = some (I, T, F) := h
  have := get_shareGo_sum p w.inheritors_shares.length w.inheritors_pubkeys
    w.inheritors_shares 0 0 0 w.inheritors_shares.length I T F h'
  simpa using this

theorem get_share_le {w : WillData} {p : List Nat} {I T F : Nat}
    (h : w.get_share p = some (I, T, F)) : I ≤ T := by
  have h' : get_shareGo p w.inheritors_shares.length w.inheritors_pubkeys 0
      w.inheritors_shares 0 0 w.inheritors_shares.length = some (I, T, F) := h
  exact get_shareGo_le p w.inheritors_shares.length w.inheritors_pubkeys
    w.inheritors_shares 0 0 0 w.inheritors_shares.length I T F le_rfl h'

theorem get_share_found {w : WillData} {p : List Nat} {I T F : Nat}
    (h : w.get_share p = some (I, T, F)) :
    (F = w.inheritors_shares.length ∧ I = 0) ∨
    (F < w.inheritors_shares.length ∧ 0 < w.inheritors_shares.getD F 0 ∧
      I = w.inheritors_shares.getD F 0 ∧ w.inheritors_pubkeys.getD F [] = p ∧
      ∀ m, m < F →
        ¬(0 < w.inheritors_shares.getD m 0 ∧ w.inheritors_pubkeys.getD m [] = p)) := by
  have h' : get_shareGo p w.inheritors_shares.length w.inheritors_pubkeys 0
      w.inheritors_shares 0 0 w.inheritors_shares.length = some (I, T, F) := h
  rcases get_shareGo_search p w.inheritors_shares.length w.inheritors_pubkeys
      w.inheritors_shares 0 0 0 I T F (by simp) h' with
    hl | ⟨k, hk, hF, hpos, hI, hid, hmin⟩
  · exact Or.inl hl
  · have hFk : F = k := by omega
    subst hFk
    refine Or.inr ⟨hk, hpos, by simpa using hI, hid, ?_⟩
    intro m hm hc
    exact hmin m hm ⟨hc.1, by simpa using hc.2⟩

theorem get_share_nopanic {w : WillData} {p : List Nat}
    (hwf : w.inheritors_shares.length ≤ w.inheritors_pubkeys.length) :
    w.get_share p =
      (match findFirstShare p w.inheritors_pubkeys 0 w.inheritors_shares with
       | none => some (0, w.inheritors_shares.sum, w.inheritors_shares.length)
       | some (j, s) => some (s, w.inheritors_shares.sum, j)) := by
  have hnp : ∀ k, k < w.inheritors_shares.length → 0 < w.inheritors_shares.getD k 0 →
      0 + k < w.inheritors_pubkeys.length := by
    intro k hk _
    omega
  have := get_shareGo_nopanic p w.inheritors_shares.length w.inheritors_pubkeys
    w.inheritors_shares 0 0 0 hnp (by simp)
  rw [WillData.get_share, this]
  cases findFirstShare p w.inheritors_pubkeys 0 w.inheritors_shares with
  | none => simp
  | some pr =>
    obtain ⟨j, s⟩ := pr
    simp

theorem get_share_pos_of_match {w : WillData} {p : List Nat}
    (hwf : w.inheritors_shares.length ≤ w.inheritors_pubkeys.length)
    {j : Nat} (hj : j < w.inheritors_shares.length)
    (hpos : 0 < w.inheritors_shares.getD j 0)
    (hid : w.inheritors_pubkeys.getD j [] = p) :
    ∃ I T F, w.get_share p = some (I, T, F) ∧ 0 < I := by
  rw [get_share_nopanic hwf]
  cases hff : findFirstShare p w.inheritors_pubkeys 0 w.inheritors_shares with
  | none =>
    exact absurd ⟨hpos, by simpa using hid⟩
      (findFirstShare_none p w.inheritors_pubkeys w.inheritors_shares 0 hff j hj)
  | some pr =>
    obtain ⟨j2, s2⟩ := pr
    exact ⟨s2, w.inheritors_shares.sum, j2, by simp,
      findFirstShare_pos p w.inheritors_pubkeys w.inheritors_shares 0 j2 s2 hff⟩

/-! ## `u64` and persist lemmas -/

theorem u64sub_eq {a b : Nat} (hba : b ≤ a) (ha : a < U64LIM) : u64sub a b = a - b := by
  unfold u64sub U64LIM
  rw [Int.emod_eq_of_lt (by omega) (by push_cast; unfold U64LIM at ha; omega)]
  omega

theorem u64add_eq {a b : Nat} (h : a + b < U64LIM) : u64add a b = a + b := by
  unfold u64add
  exact Nat.mod_eq_of_lt h

theorem persist_ok {w : WillData} {st : AccountState}
    (h : (encodeWillData w).length ≤ st.accountData.length) :
    persist w st = PResult.ok
      { st with accountData :=
          encodeWillData w ++ st.accountData.drop (encodeWillData w).length } := by
  simp [persist, h]

theorem encodeWillData_length_ts (w : WillData) (t : Int) :
    (encodeWillData { w with withdraw_allowed_ts := t }).length
      = (encodeWillData w).length := by
  simp [encodeWillData_length]

theorem encodeWillData_length_set (w : WillData) (idx v : Nat) :
    (encodeWillData { w with inheritors_shares := w.inheritors_shares.set idx v }).length
      = (encodeWillData w).length := by
  simp [encodeWillData_length]

/-! ## Evaluating the opcode-2 path -/

theorem check_released_ok {w : WillData} {now : Int} (hrel : w.withdraw_allowed_ts < now) :
    w.check_released now = Except.ok () := by
  unfold WillData.check_released
  rw [if_pos hrel]

theorem process_opcode2_run (program_id sender_key account_key : Pubkey) (now : Int)
    (tl : List Nat) (st : AccountState) (w : WillData) (r : List Nat)
    (hdata : decodeWillData st.accountData = some (w, r))
    (hrel : w.withdraw_allowed_ts < now) :
    process_instruction program_id sender_key account_key program_id now (2 :: tl) st =
      (match w.get_share sender_key with
       | none => PResult.panic
       | some (inh, total, idx) =>
         if inh = 0 then PResult.err (PErr.custom 2) st
         else if total = 0 then PResult.panic
         else
           persist { w with inheritors_shares := w.inheritors_shares.set idx 0 }
             { st with
               accountLamports := u64sub st.accountLamports (st.accountLamports / total * inh),
               senderLamports := u64add st.senderLamports (st.accountLamports / total * inh) }) := by
  simp only [process_instruction, if_neg (show ¬program_id ≠ program_id by simp), hdata,
    check_released_ok hrel]

/-- The successful opcode-2 path: released record, positive matched weight.
The state written is the balance transfer (wrapping `u64` form) plus the
re-serialized record with the matched entry zeroed. -/
theorem opcode2_success_run (program_id sender_key account_key : Pubkey) (now : Int)
    (tl : List Nat) (st : AccountState) (w : WillData) (r : List Nat)
    (inh total idx : Nat)
    (hdata : st.accountData = encodeWillData w ++ r)
    (hval : w.Valid)
    (hrel : w.withdraw_allowed_ts < now)
    (hgs : w.get_share sender_key = some (inh, total, idx))
    (hinh : inh ≠ 0) :
    process_instruction program_id sender_key account_key program_id now (2 :: tl) st =
      PResult.ok
        { senderLamports := u64add st.senderLamports (st.accountLamports / total * inh),
          accountLamports := u64sub st.accountLamports (st.accountLamports / total * inh),
          accountData :=
            encodeWillData { w with inheritors_shares := w.inheritors_shares.set idx 0 }
              ++ r } := by
  have hdec : decodeWillData st.accountData = some (w, r) := by
    rw [hdata]
    exact decodeWillData_encodeWillData r hval
  have hrun := process_opcode2_run program_id sender_key account_key now tl st w r hdec hrel
  rw [hgs] at hrun
  simp only [] at hrun
  rw [if_neg hinh] at hrun
  have hle := get_share_le hgs
  have htot : ¬total = 0 := by omega
  rw [if_neg htot] at hrun
  have hlen : (encodeWillData
      { w with inheritors_shares := w.inheritors_shares.set idx 0 }).length ≤
      ({ st with
          accountLamports := u64sub st.accountLamports (st.accountLamports / total * inh),
          senderLamports := u64add st.senderLamports (st.accountLamports / total * inh)
        : AccountState}).accountData.length := by
    simp only [encodeWillData_length_set, hdata, List.length_append]
    omega
  rw [persist_ok hlen] at hrun
  rw [hrun]
  simp [hdata, encodeWillData_length_set, List.drop_left]

/-- The failing opcode-2 path: released record, matched weight 0 — the
invocation fails with `Custom(2)` (NoShareError) and the state is unchanged. -/
theorem opcode2_noshare_run (program_id sender_key account_key : Pubkey) (now : Int)
    (tl : List Nat) (st : AccountState) (w : WillData) (r : List Nat)
    (total idx : Nat)
    (hdata : st.accountData = encodeWillData w ++ r)
    (hval : w.Valid)
    (hrel : w.withdraw_allowed_ts < now)
    (hgs : w.get_share sender_key = some (0, total, idx)) :
    process_instruction program_id sender_key account_key program_id now (2 :: tl) st =
      PResult.err (PErr.custom 2) st := by
  have hdec : decodeWillData st.accountData = some (w, r) := by
    rw [hdata]
    exact decodeWillData_encodeWillData r hval
  have hrun := process_opcode2_run program_id sender_key account_key now tl st w r hdec hrel
  rw [hgs] at hrun
  simpa using hrun

/-! ## Claim C1 -/

/-- C1 counterexample: balance 3, single entry with share weight 5 for the
caller, record released.  The payable amount is `floor(3/5) * 5 = 0`, yet the
opcode-2 invocation succeeds, transfers nothing, and zeroes the entry — it
does not fail with NoShareError as the claim requires. -/
theorem opcode2_zero_payout_succeeds_cex :
    (3 : Nat) / 5 * 5 = 0 ∧
    process_instruction exProgramId [66] exAccountKey exProgramId 10 [2]
      ⟨0, 3, encodeWillData exWill⟩ =
      PResult.ok ⟨0, 3, encodeWillData exWillZeroed⟩ := by
  constructor
  · rfl
  · decide

/-- C1 (amended): an opcode-2 invocation on a released, decodable record
fails with NoShareError (`Custom(2)`), leaving the whole state untouched, if
and only if the claimant's matched share weight is 0; with a positive matched
weight the invocation instead succeeds — even when the payable amount
`floor(balance/total_shares) * share` is 0 — and zeroes the matched entry. -/
theorem opcode2_noshare_iff_zero_weight (program_id sender_key account_key : Pubkey)
    (now : Int) (tl : List Nat) (st : AccountState) (w : WillData) (r : List Nat)
    (inh total idx : Nat)
    (hdata : st.accountData = encodeWillData w ++ r)
    (hval : w.Valid)
    (hrel : w.withdraw_allowed_ts < now)
    (hgs : w.get_share sender_key = some (inh, total, idx)) :
    (process_instruction program_id sender_key account_key program_id now (2 :: tl) st =
        PResult.err (PErr.custom 2) st ↔ inh = 0) ∧
    (inh ≠ 0 →
      process_instruction program_id sender_key account_key program_id now (2 :: tl) st =
        PResult.ok
          { senderLamports := u64add st.senderLamports (st.accountLamports / total * inh),
            accountLamports := u64sub st.accountLamports (st.accountLamports / total * inh),
            accountData :=
              encodeWillData { w with inheritors_shares := w.inheritors_shares.set idx 0 }
                ++ r }) := by
  by_cases hinh : inh = 0
  · subst hinh
    have herr := opcode2_noshare_run program_id sender_key account_key now tl st w r
      total idx hdata hval hrel hgs
    exact ⟨by simp [herr], fun h => absurd rfl h⟩
  · have hok := opcode2_success_run program_id sender_key account_key now tl st w r
      inh total idx hdata hval hrel hgs hinh
    exact ⟨by simp [hok, hinh], fun _ => hok⟩

/-- Witness for `opcode2_noshare_iff_zero_weight` at a concrete input. -/
theorem opcode2_noshare_iff_zero_weight_witness :
    (process_instruction exProgramId [66] exAccountKey exProgramId 10 [2]
        ⟨0, 3, encodeWillData exWill⟩ =
      PResult.err (PErr.custom 2) ⟨0, 3, encodeWillData exWill⟩ ↔ (5 : Nat) = 0) ∧
    ((5 : Nat) ≠ 0 →
      process_instruction exProgramId [66] exAccountKey exProgramId 10 [2]
          ⟨0, 3, encodeWillData exWill⟩ =
        PResult.ok
          { senderLamports := u64add 0 (3 / 5 * 5),
            accountLamports := u64sub 3 (3 / 5 * 5),
            accountData :=
              encodeWillData
                { exWill with inheritors_shares := exWill.inheritors_shares.set 0 0 }
                ++ [] }) :=
  opcode2_noshare_iff_zero_weight exProgramId [66] exAccountKey 10 []
    ⟨0, 3, encodeWillData exWill⟩ exWill [] 5 5 0 (by simp) (by decide) (by decide)
    (by decide)

/-! ## Claim C2 -/

/-- C2: an opcode-2 invocation that reaches the transfer pays out exactly
`floor(account_balance / total_shares) * claimant_share`, with the floor
division performed before the multiplication; `total_shares` is the sum of
the share values of all beneficiary entries and `claimant_share` is the
matched entry's share; the division remainder stays in the account. -/
theorem opcode2_transfer_amount (program_id sender_key account_key : Pubkey)
    (now : Int) (tl : List Nat) (st : AccountState) (w : WillData) (r : List Nat)
    (inh total idx : Nat)
    (hdata : st.accountData = encodeWillData w ++ r)
    (hval : w.Valid)
    (hrel : w.withdraw_allowed_ts < now)
    (hgs : w.get_share sender_key = some (inh, total, idx))
    (hinh : inh ≠ 0)
    (hbal : st.accountLamports < U64LIM)
    (hsend : st.senderLamports + st.accountLamports / total * inh < U64LIM) :
    process_instruction program_id sender_key account_key program_id now (2 :: tl) st =
      PResult.ok
        { senderLamports := st.senderLamports + st.accountLamports / total * inh,
          accountLamports := st.accountLamports - st.accountLamports / total * inh,
          accountData :=
            encodeWillData { w with inheritors_shares := w.inheritors_shares.set idx 0 }
              ++ r } ∧
    total = w.inheritors_shares.sum ∧
    idx < w.inheritors_shares.length ∧
    w.inheritors_shares.getD idx 0 = inh := by
  have hok := opcode2_success_run program_id sender_key account_key now tl st w r
    inh total idx hdata hval hrel hgs hinh
  have hle := get_share_le hgs
  have hamt : st.accountLamports / total * inh ≤ st.accountLamports := by
    calc st.accountLamports / total * inh ≤ st.accountLamports / total * total :=
      Nat.mul_le_mul_left _ hle
    _ ≤ st.accountLamports := Nat.div_mul_le_self st.accountLamports total
  rcases get_share_found hgs with ⟨-, hzero⟩ | ⟨hlt, -, hI, -, -⟩
  · exact absurd hzero hinh
  · refine ⟨?_, get_share_sum hgs, hlt, hI.symm⟩
    rw [hok, u64add_eq hsend, u64sub_eq hamt hbal]

/-- Witness for `opcode2_transfer_amount`: two entries with weights 3 and 2,
balance 5000; the claimant at index 0 receives `floor(5000/5)*3 = 3000`. -/
theorem opcode2_transfer_amount_witness :
    process_instruction exProgramId [9] exAccountKey exProgramId 10 [2]
      ⟨0, 5000, encodeWillData exDupWill⟩ =
      PResult.ok
        { senderLamports := 0 + 5000 / 12 * 3,
          accountLamports := 5000 - 5000 / 12 * 3,
          accountData :=
            encodeWillData
              { exDupWill with inheritors_shares := exDupWill.inheritors_shares.set 0 0 }
              ++ [] } ∧
    (12 : Nat) = exDupWill.inheritors_shares.sum ∧
    (0 : Nat) < exDupWill.inheritors_shares.length ∧
    exDupWill.inheritors_shares.getD 0 0 = 3 :=
  opcode2_transfer_amount exProgramId [9] exAccountKey 10 []
    ⟨0, 5000, encodeWillData exDupWill⟩ exDupWill [] 3 12 0 (by simp) (by decide)
    (by decide) (by decide) (by decide) (by decide) (by decide)

/-! ## Claim C3 -/

/-- C3: the release gate passes iff `release_deadline < now` (strict): it
fails at `now = deadline` and before, succeeds after, and the failure carries
both the deadline and the current time. -/
theorem check_released_strict_boundary (w : WillData) (now : Int) :
    (w.check_released now = Except.ok () ↔ w.withdraw_allowed_ts < now) ∧
    (now ≤ w.withdraw_allowed_ts →
      w.check_released now = Except.error (w.withdraw_allowed_ts, now)) := by
  unfold WillData.check_released
  constructor
  · constructor
    · intro h
      by_contra hc
      rw [if_neg hc] at h
      simp at h
    · intro h
      rw [if_pos h]
  · intro h
    rw [if_neg (by omega)]

/-- Witness for `check_released_strict_boundary`: deadline 0 rejects a claim
at time 0 and accepts one at time 1. -/
theorem check_released_strict_boundary_witness :
    exWill.check_released 0 = Except.error (0, 0) ∧
    exWill.check_released 1 = Except.ok () :=
  ⟨(check_released_strict_boundary exWill 0).2 (by decide),
   (check_released_strict_boundary exWill 1).1.mpr (by decide)⟩

/-! ## Claim C4 -/

/-- C4: opcodes 0 and 1 are gated on the target account key equalling the
address derived from (caller identity, fixed seed, program id): a mismatch is
rejected with the authorization error, returning the state unchanged, and any
successful mutation implies the derived address matched. -/
theorem owner_opcodes_require_derived_address (program_id sender_key account_key : Pubkey)
    (now : Int) (b : Nat) (tl : List Nat) (st : AccountState)
    (hb : b = 0 ∨ b = 1) :
    (account_key ≠ create_with_seed sender_key fixedSeed program_id →
      process_instruction program_id sender_key account_key program_id now (b :: tl) st =
        PResult.err PErr.incorrectProgramId st) ∧
    (∀ st2, process_instruction program_id sender_key account_key program_id now (b :: tl) st =
        PResult.ok st2 → account_key = create_with_seed sender_key fixedSeed program_id) := by
  have hrej : account_key ≠ create_with_seed sender_key fixedSeed program_id →
      process_instruction program_id sender_key account_key program_id now (b :: tl) st =
        PResult.err PErr.incorrectProgramId st := by
    intro hne
    rcases hb with rfl | rfl
    · simp [process_instruction, check_ownership, hne]
    · simp [process_instruction, check_ownership, hne]
  refine ⟨hrej, ?_⟩
  intro st2 hok
  by_contra hne
  rw [hrej hne] at hok
  simp at hok

/-- Witness for `owner_opcodes_require_derived_address`: a caller whose
derived address is not the target is rejected and nothing changes. -/
theorem owner_opcodes_require_derived_address_witness :
    process_instruction exProgramId exSender [9] exProgramId 0 [0] ⟨0, 7, [1]⟩ =
      PResult.err PErr.incorrectProgramId ⟨0, 7, [1]⟩ :=
  (owner_opcodes_require_derived_address exProgramId exSender [9] 0 0 [] ⟨0, 7, [1]⟩
    (Or.inl rfl)).1 (by decide)

/-! ## Claim C7 -/

/-- C7 (code bug in the source): with the target account owned by the
program, the empty instruction payload reaches the unchecked
`_instruction_data[0]` index and panics (an abort outside the declared error
taxonomy) instead of yielding a DecodeError. -/
theorem empty_instruction_panics :
    process_instruction exProgramId exSender exAccountKey exProgramId 0 [] ⟨0, 10, []⟩ =
      PResult.panic := by
  decide

/-! ## Claim C9 -/

/-- C9: decoding the encoding of any valid Will Record yields the record back
with no residual bytes (the layout being version byte, 8-byte signed
timestamp, then the three length-prefixed parallel sequences). -/
theorem willRecord_roundtrip (w : WillData) (hw : w.Valid) :
    decodeWillData (encodeWillData w) = some (w, []) := by
  have h := decodeWillData_encodeWillData [] hw
  simpa using h

/-- Witness for `willRecord_roundtrip` on a concrete record. -/
theorem willRecord_roundtrip_witness :
    decodeWillData (encodeWillData exDupWill) = some (exDupWill, []) :=
  willRecord_roundtrip exDupWill (by decide)

/-! ## Claim C10 -/

/-- C10: the matched claimant share is included in (hence bounded by) the
accumulated total, so the opcode-2 payout `floor(balance/total) * share`
never exceeds the balance, and the `u64` balance subtraction cannot wrap. -/
theorem opcode2_payout_le_balance (w : WillData) (p : List Nat)
    (inh total idx bal : Nat)
    (hgs : w.get_share p = some (inh, total, idx)) (hbal : bal < U64LIM) :
    inh ≤ total ∧ bal / total * inh ≤ bal ∧
    u64sub bal (bal / total * inh) = bal - bal / total * inh := by
  have hle : inh ≤ total := get_share_le hgs
  have hmul : bal / total * inh ≤ bal := by
    calc bal / total * inh ≤ bal / total * total := Nat.mul_le_mul_left _ hle
    _ ≤ bal := Nat.div_mul_le_self bal total
  exact ⟨hle, hmul, u64sub_eq hmul hbal⟩

/-- Witness for `opcode2_payout_le_balance` on a concrete record. -/
theorem opcode2_payout_le_balance_witness :
    (2 : Nat) ≤ 12 ∧ (5000 : Nat) / 12 * 2 ≤ 5000 ∧
    u64sub 5000 (5000 / 12 * 2) = 5000 - 5000 / 12 * 2 :=
  opcode2_payout_le_balance exDupWill [8] 2 12 1 5000 (by decide) (by decide)

/-! ## Claim C8 -/

/-- C8 counterexample: a payload whose names/identities/shares sequences have
lengths 0, 0, 1 decodes successfully — mismatched lengths are not rejected at
decode time. -/
theorem mismatched_lengths_decode_cex :
    decodeSetInheritenceMessage exMismatchedPayload =
      some (⟨0, [], [], [1]⟩, []) ∧
    (SetInheritenceMessage.mk 0 [] [] [1]).inheritors_names.length ≠
      (SetInheritenceMessage.mk 0 [] [] [1]).inheritors_shares.length := by
  constructor
  · decide
  · decide

/-- C8 (amended): opcode-0 payload decoding imposes no relation between the
three sequence lengths — every well-formed field encoding decodes, equal
lengths or not — so records with inconsistent parallel arrays are storable,
and on such a record the share scan hits an out-of-bounds identity access
(modelled as a panic) at a positive-share index with no identity entry. -/
theorem decode_ignores_length_mismatch :
    (∀ m : SetInheritenceMessage, m.Valid →
      decodeSetInheritenceMessage (encodeSetInheritenceMessage m) = some (m, [])) ∧
    exBadWill.get_share [66] = none := by
  constructor
  · intro m hm
    have h := decodeSetMsg_encodeSetMsg [] hm
    simpa using h
  · decide

/-- Witness for `decode_ignores_length_mismatch`: the mismatched message
(lengths 0, 0, 1) round-trips through the decoder. -/
theorem decode_ignores_length_mismatch_witness :
    decodeSetInheritenceMessage (encodeSetInheritenceMessage ⟨0, [], [], [1]⟩) =
      some (⟨0, [], [], [1]⟩, []) :=
  decode_ignores_length_mismatch.1 ⟨0, [], [], [1]⟩ (by decide)

/-! ## Claim C5 -/

/-- C5: if the claimant's identity appears in two or more positive-weight
entries, a successful opcode-2 claim zeroes exactly the lowest-index positive
matching entry; every other entry keeps its weight, and the same identity
still finds a positive share on the updated record (claimable again). -/
theorem opcode2_duplicate_first_match_only (program_id sender_key account_key : Pubkey)
    (now : Int) (tl : List Nat) (st : AccountState) (w : WillData) (r : List Nat)
    (inh total idx j : Nat)
    (hdata : st.accountData = encodeWillData w ++ r)
    (hval : w.Valid)
    (hwf : w.inheritors_pubkeys.length = w.inheritors_shares.length)
    (hrel : w.withdraw_allowed_ts < now)
    (hgs : w.get_share sender_key = some (inh, total, idx))
    (hinh : inh ≠ 0)
    (hj : j < w.inheritors_shares.length) (hjne : j ≠ idx)
    (hjpos : 0 < w.inheritors_shares.getD j 0)
    (hjid : w.inheritors_pubkeys.getD j [] = sender_key) :
    (idx < w.inheritors_shares.length ∧ 0 < w.inheritors_shares.getD idx 0 ∧
      w.inheritors_pubkeys.getD idx [] = sender_key ∧
      ∀ m, m < idx → ¬(0 < w.inheritors_shares.getD m 0 ∧
        w.inheritors_pubkeys.getD m [] = sender_key)) ∧
    process_instruction program_id sender_key account_key program_id now (2 :: tl) st =
      PResult.ok
        { senderLamports := u64add st.senderLamports (st.accountLamports / total * inh),
          accountLamports := u64sub st.accountLamports (st.accountLamports / total * inh),
          accountData :=
            encodeWillData { w with inheritors_shares := w.inheritors_shares.set idx 0 }
              ++ r } ∧
    (∀ k, k ≠ idx →
      (w.inheritors_shares.set idx 0).getD k 0 = w.inheritors_shares.getD k 0) ∧
    (∃ I2 T2 F2,
      WillData.get_share { w with inheritors_shares := w.inheritors_shares.set idx 0 }
        sender_key = some (I2, T2, F2) ∧ 0 < I2) := by
  have hunch : ∀ k, k ≠ idx →
      (w.inheritors_shares.set idx 0).getD k 0 = w.inheritors_shares.getD k 0 := by
    intro k hk
    simp [List.getD_eq_getElem?_getD, List.getElem?_set_ne (by omega : idx ≠ k)]
  rcases get_share_found hgs with ⟨-, hzero⟩ | ⟨hlt, hpos, hI, hid, hmin⟩
  · exact absurd hzero hinh
  · refine ⟨⟨hlt, hpos, hid, hmin⟩,
      opcode2_success_run program_id sender_key account_key now tl st w r
        inh total idx hdata hval hrel hgs hinh, hunch, ?_⟩
    have hwf2 : ({ w with inheritors_shares := w.inheritors_shares.set idx 0 }
        : WillData).inheritors_shares.length ≤
        ({ w with inheritors_shares := w.inheritors_shares.set idx 0 }
        : WillData).inheritors_pubkeys.length := by
      simp
      omega
    have hj2 : j < ({ w with inheritors_shares := w.inheritors_shares.set idx 0 }
        : WillData).inheritors_shares.length := by
      simpa using hj
    have hjpos2 : 0 < (w.inheritors_shares.set idx 0).getD j 0 := by
      rw [hunch j hjne]
      exact hjpos
    have hjid2 : ({ w with inheritors_shares := w.inheritors_shares.set idx 0 }
        : WillData).inheritors_pubkeys.getD j [] = sender_key := hjid
    exact get_share_pos_of_match hwf2 hj2 hjpos2 hjid2

/-- Witness for `opcode2_duplicate_first_match_only`: identity `[8]` is
registered at indices 1 and 2 of `exDupWill`; the claim zeroes index 1 only. -/
theorem opcode2_duplicate_first_match_only_witness :
    process_instruction exProgramId [8] exAccountKey exProgramId 10 [2]
      ⟨0, 5000, encodeWillData exDupWill⟩ =
      PResult.ok
        { senderLamports := u64add 0 (5000 / 12 * 2),
          accountLamports := u64sub 5000 (5000 / 12 * 2),
          accountData :=
            encodeWillData
              { exDupWill with inheritors_shares := exDupWill.inheritors_shares.set 1 0 }
              ++ [] } :=
  (opcode2_duplicate_first_match_only exProgramId [8] exAccountKey 10 []
    ⟨0, 5000, encodeWillData exDupWill⟩ exDupWill [] 2 12 1 2 (by simp) (by decide)
    (by decide) (by decide) (by decide) (by decide) (by decide) (by decide) (by decide)
    (by decide)).2.1

/-! ## Claim C6 -/

/-- C6 counterexample: an authorized opcode-1 withdrawal whose stored record
bytes are undecodable (empty buffer) moves the balances first and only then
fails with the decode error — the error return leaves the transfer visible. -/
theorem opcode1_error_after_transfer_cex :
    process_instruction exProgramId exSender exAccountKey exProgramId 0
      [1, 5, 0, 0, 0, 0, 0, 0, 0] ⟨0, 10, []⟩ =
      PResult.err PErr.borshIo ⟨5, 5, []⟩ := by
  decide

/-- C6 (amended): an error return leaves the state exactly unchanged unless
the error is a borsh failure in an owner opcode: an opcode-0 persist failure
can leave the record buffer partially overwritten (balances intact), and an
opcode-1 record-decode failure happens after the balance transfer (record
bytes intact).  Authorization, release-gate, no-share and all opcode-2 errors
leave everything untouched. -/
theorem errors_unchanged_except_borsh
    (program_id sender_key account_key account_owner : Pubkey)
    (now : Int) (data : List Nat) (st : AccountState) (e : PErr) (st2 : AccountState)
    (h : process_instruction program_id sender_key account_key account_owner now data st =
      PResult.err e st2) :
    st2 = st ∨
    (e = PErr.borshIo ∧
      ((data.head? = some 0 ∧ st2.senderLamports = st.senderLamports ∧
        st2.accountLamports = st.accountLamports) ∨
       (data.head? = some 1 ∧ st2.accountData = st.accountData))) := by
  unfold process_instruction at h
  split at h
  · -- account owner mismatch
    simp only [PResult.err.injEq] at h
    exact Or.inl h.2.symm
  · split at h
    · -- data = []: panic
      exact absurd h (by simp)
    · -- opcode 0
      split at h
      next e0 hown =>
        simp only [PResult.err.injEq] at h
        exact Or.inl h.2.symm
      next hown =>
        split at h
        next =>
          simp only [PResult.err.injEq] at h
          exact Or.inl h.2.symm
        next w0 r0 hdec =>
          split at h
          next =>
            simp only [PResult.err.injEq] at h
            exact Or.inl h.2.symm
          next m0 r1 hmsg =>
            simp only [persist] at h
            split at h
            next => exact absurd h (by simp)
            next =>
              simp only [PResult.err.injEq] at h
              refine Or.inr ⟨h.1.symm, Or.inl ⟨by simp, ?_, ?_⟩⟩
              · rw [← h.2]
              · rw [← h.2]
    · -- opcode 1
      split at h
      next e1 hown =>
        simp only [PResult.err.injEq] at h
        exact Or.inl h.2.symm
      next hown =>
        split at h
        next =>
          simp only [PResult.err.injEq] at h
          exact Or.inl h.2.symm
        next m1 r1 hmsg =>
          simp only [] at h
          split at h
          next hdec =>
            simp only [PResult.err.injEq] at h
            refine Or.inr ⟨h.1.symm, Or.inr ⟨by simp, ?_⟩⟩
            rw [← h.2]
          next w1 r2 hdec =>
            simp only [persist] at h
            split at h
            next => exact absurd h (by simp)
            next hfit =>
              exfalso
              have hlen := decodeWillData_length hdec
              have hts := encodeWillData_length_ts w1 (now + RELEASE_WINDOW)
              simp only at hlen
              exact hfit (by simp only [hts]; omega)
    · -- opcode 2
      split at h
      next =>
        simp only [PResult.err.injEq] at h
        exact Or.inl h.2.symm
      next w2 r2 hdec =>
        split at h
        next =>
          simp only [PResult.err.injEq] at h
          exact Or.inl h.2.symm
        next =>
          split at h
          next => exact absurd h (by simp)
          next inh total idx hgs =>
            split at h
            next =>
              simp only [PResult.err.injEq] at h
              exact Or.inl h.2.symm
            next hinh =>
              split at h
              next => exact absurd h (by simp)
              next htot =>
                simp only [persist] at h
                split at h
                next => exact absurd h (by simp)
                next hfit =>
                  exfalso
                  have hlen := decodeWillData_length hdec
                  have hset := encodeWillData_length_set w2 idx 0
                  simp only at hlen
                  exact hfit (by simp only [hset]; omega)
    · -- unrecognized opcode: succeeds
      exact absurd h (by simp)

/-- Witness for `errors_unchanged_except_borsh` on the opcode-1 post-transfer
decode failure. -/
theorem errors_unchanged_except_borsh_witness :
    (AccountState.mk 5 5 [] = AccountState.mk 0 10 [] ∨
      (PErr.borshIo = PErr.borshIo ∧
        (([1, 5, 0, 0, 0, 0, 0, 0, 0].head? = some 0 ∧ (5 : Nat) = 0 ∧ (5 : Nat) = 10) ∨
         ([1, 5, 0, 0, 0, 0, 0, 0, 0].head? = some 1 ∧ ([] : List Nat) = [])))) :=
  errors_unchanged_except_borsh exProgramId exSender exAccountKey exProgramId 0
    [1, 5, 0, 0, 0, 0, 0, 0, 0] ⟨0, 10, []⟩ PErr.borshIo ⟨5, 5, []⟩ (by decide)
